import Mathlib

/-!
Verification of the financer database-migration system (dual-datastore
migration runner). The definitions below are a shallow embedding of
src/financer/migration/postgres_engine.py, mongodb_engine.py and
execution_control.py. External collaborators (psycopg2, pymongo,
json.loads, the wall clock, getpass) are modelled as explicit inputs or
oracle parameters; the migration directory is modelled as a list of
(filename, content) pairs handed to discovery in filesystem enumeration
order. Timestamps (installed_on / start_time) are not modelled: no claim
mentions them.
-/

namespace Financer

/-! ## Python string and int semantics used by the engines -/

/-- Python str.split on a single dot: keeps empty parts, always returns at
least one part (like "a.b".split(".")). -/
def splitDot : List Char → List (List Char)
  | [] => [[]]
  | '.' :: rest => [] :: splitDot rest
  | c :: rest =>
    match splitDot rest with
    | [] => [[c]]
    | g :: gs => (c :: g) :: gs

/-- ASCII whitespace stripped by Python int() around a numeric literal
(space, tab, newline, carriage return, vertical tab, form feed; unicode
whitespace is not modelled, no claim depends on it). -/
def pyIsSpace (c : Char) : Bool :=
  c = ' ' || c = '\t' || c = '\n' || c = '\r' || c = '\x0b' || c = '\x0c'

def stripWs (l : List Char) : List Char :=
  ((l.dropWhile pyIsSpace).reverse.dropWhile pyIsSpace).reverse

/-- Tail of a Python int literal after its first digit: digits with single
underscores allowed only between digits (int("1_0") is 10, int("1__0") and
int("1_") raise). -/
def duTail : List Char → Bool
  | [] => true
  | c :: rest =>
    if c = '_' then
      match rest with
      | [] => false
      | d :: rest2 => d.isDigit && duTail rest2
    else c.isDigit && duTail rest

/-- Digit run of a Python int literal: one digit, then duTail. -/
def duOk : List Char → Bool
  | [] => false
  | c :: rest => c.isDigit && duTail rest

def digitsVal (l : List Char) : Nat :=
  (l.filter (fun c => c ≠ '_')).foldl (fun a c => 10 * a + (c.toNat - 48)) 0

/-- Python int(s) on a str: strips surrounding whitespace, accepts one
optional sign, then digits with optional single grouping underscores;
returns none where Python raises ValueError. -/
def pyIntOfChars (l : List Char) : Option Int :=
  match stripWs l with
  | '+' :: r => if duOk r then some (Int.ofNat (digitsVal r)) else none
  | '-' :: r => if duOk r then some (-(Int.ofNat (digitsVal r))) else none
  | r => if duOk r then some (Int.ofNat (digitsVal r)) else none

/-- Embeds _version_to_tuple (identical in both engines):
tuple(int(x) for x in version.split(".")), with the ValueError fallback
(0,). Tuples of Python ints are modelled as List Int. -/
def _version_to_tuple (version : String) : List Int :=
  if (splitDot version.data).all (fun p => (pyIntOfChars p).isSome) then
    (splitDot version.data).map (fun p => (pyIntOfChars p).getD 0)
  else [0]

/-- Python tuple-of-int strict comparison (lexicographic; a strict prefix
is smaller). -/
def tupLt : List Int → List Int → Bool
  | [], [] => false
  | [], _ :: _ => true
  | _ :: _, [] => false
  | a :: as, b :: bs => if a < b then true else if b < a then false else tupLt as bs

/-- Non-strict tuple comparison, as used by a stable sort on keys. -/
def tupLe (x y : List Int) : Bool := !(tupLt y x)

/-! ## Relational (Flyway-compatible) checksum: postgres_engine._calculate_checksum -/

/-- Python content.replace("\r\n", "\n"): leftmost non-overlapping
replacement of the two-character sequence. -/
def pyReplaceCRLF : List Char → List Char
  | [] => []
  | [c] => [c]
  | c1 :: c2 :: rest =>
    if c1 = '\r' ∧ c2 = '\n' then '\n' :: pyReplaceCRLF rest
    else c1 :: pyReplaceCRLF (c2 :: rest)

/-- Python .replace("\r", "\n") on the result of the first replace. -/
def pyReplaceCR (l : List Char) : List Char :=
  l.map (fun c => if c = '\r' then '\n' else c)

/-- The two-step line-ending normalization of _calculate_checksum. -/
def normalizeLineEndings (l : List Char) : List Char :=
  pyReplaceCR (pyReplaceCRLF l)

/-- UTF-8 encoding of one scalar value (str.encode("utf-8")). -/
def utf8EncodeChar (c : Char) : List Nat :=
  let n := c.toNat
  if n < 0x80 then [n]
  else if n < 0x800 then
    [0xC0 ||| (n >>> 6), 0x80 ||| (n &&& 0x3F)]
  else if n < 0x10000 then
    [0xE0 ||| (n >>> 12), 0x80 ||| ((n >>> 6) &&& 0x3F), 0x80 ||| (n &&& 0x3F)]
  else
    [0xF0 ||| (n >>> 18), 0x80 ||| ((n >>> 12) &&& 0x3F),
     0x80 ||| ((n >>> 6) &&& 0x3F), 0x80 ||| (n &&& 0x3F)]

def utf8Encode (l : List Char) : List Nat :=
  l.foldr (fun c acc => utf8EncodeChar c ++ acc) []

/-- One round of the reflected CRC-32 bit loop (polynomial 0xEDB88320),
the algorithm of zlib.crc32. -/
def crcRound (c : Nat) : Nat :=
  if c % 2 = 1 then Nat.xor (c / 2) 0xEDB88320 else c / 2

def crcUpdateByte (c b : Nat) : Nat :=
  crcRound (crcRound (crcRound (crcRound
    (crcRound (crcRound (crcRound (crcRound (Nat.xor c b))))))))

/-- zlib.crc32 over a byte sequence (initial value 0, i.e. register
0xFFFFFFFF with final complement). -/
def crc32 (bytes : List Nat) : Nat :=
  Nat.xor (bytes.foldl crcUpdateByte 0xFFFFFFFF) 0xFFFFFFFF

/-- Conversion to a signed 32-bit value exactly as in the source:
if crc32 >= 2**31: crc32 -= 2**32. -/
def toSigned (n : Nat) : Int :=
  if 2 ^ 31 ≤ n then (n : Int) - 2 ^ 32 else (n : Int)

/-- The integer value of the relational checksum of a character sequence. -/
def crcChecksumOfChars (l : List Char) : Int :=
  toSigned (crc32 (utf8Encode (normalizeLineEndings l)))

def checksumInt (content : String) : Int := crcChecksumOfChars content.data

/-- Embeds PostgreSQLMigrationEngine._calculate_checksum: normalize line
endings, CRC32 the UTF-8 bytes, convert to signed 32 bit, return str(...). -/
def _calculate_checksum (content : String) : String :=
  toString (checksumInt content)

/-! ## PostgreSQL engine data model -/

/-- Embeds the MigrationScript dataclass (file_path, a display duplicate
of filename, is omitted: no claim mentions it). -/
structure MigrationScript where
  version : String
  description : String
  filename : String
  checksum : String
  sql_content : String
deriving DecidableEq, Repr

/-- Embeds the MigrationResult dataclass (checksum/script carried as
Option like the Python None defaults). -/
structure MigrationResult where
  version : String
  description : String
  type : String
  state : String
  script : Option String
  checksum : Option String
  execution_time : Nat
  error_details : Option String
  successful : Bool
deriving DecidableEq, Repr

/-- One row of the flyway_schema_history table. installed_on is not
modelled (timestamps appear in no claim); the INTEGER checksum column is
an Int, as psycopg2 returns Python int for it. -/
structure AppliedMigrationRow where
  installed_rank : Nat
  version : String
  description : String
  type : String
  script : String
  checksum : Int
  installed_by : String
  execution_time : Nat
  success : Bool
deriving DecidableEq, Repr

/-! ## Migration filename parsing (discover_migrations regex) -/

/-- Fuel-indexed parser for the regex fragment (\.[0-9]+)* taken greedily;
fuel (initially the input length, always sufficient since every step
consumes at least two characters) only serves structural termination. -/
def parseDotGroupsF : Nat → List Char → List Char × List Char
  | 0, l => ([], l)
  | Nat.succ fuel, l =>
    match l with
    | '.' :: c :: rest =>
      if c.isDigit then
        let ds := (c :: rest).takeWhile Char.isDigit
        let rest1 := (c :: rest).dropWhile Char.isDigit
        let p := parseDotGroupsF fuel rest1
        ('.' :: (ds ++ p.1), p.2)
      else ([], l)
    | _ => ([], l)

def parseDotGroups (l : List Char) : List Char × List Char :=
  parseDotGroupsF l.length l

/-- Embeds the anchored match of V([0-9]+(?:\.[0-9]+)*)__(.+)\.sql
against a filename; returns (version group, description group). In the
regex, . does not match a newline, hence the no-newline check on the
description; greediness never needs backtracking here because the
character after the version group must be an underscore, which can occur
in neither [0-9] nor a dot group. -/
def matchMigrationName (name : List Char) : Option (List Char × List Char) :=
  match name with
  | 'V' :: rest =>
    if rest.takeWhile Char.isDigit = [] then none
    else
      match (parseDotGroups (rest.dropWhile Char.isDigit)).2 with
      | '_' :: '_' :: r3 =>
        if 4 < r3.length ∧ r3.drop (r3.length - 4) = ['.', 's', 'q', 'l'] ∧
            ¬ (r3.take (r3.length - 4)).contains '\n' then
          some (rest.takeWhile Char.isDigit ++
              (parseDotGroups (rest.dropWhile Char.isDigit)).1,
            r3.take (r3.length - 4))
        else none
      | _ => none
  | _ => none

def underscoresToSpaces (l : List Char) : List Char :=
  l.map (fun c => if c = '_' then ' ' else c)

/-- One file of the migrations/postgresql directory, in filesystem
enumeration order; content is the text read_text returned (per-file read
errors, which the source logs and skips, are not modelled — every listed
file is readable). -/
structure PGFile where
  name : String
  content : String
deriving DecidableEq, Repr

/-- Per-file step of discover_migrations: regex match (which subsumes the
*.sql glob filter), description underscores-to-spaces, checksum of the
raw content. -/
def pgToScript (f : PGFile) : Option MigrationScript :=
  (matchMigrationName f.name.data).map (fun vd =>
    { version := String.mk vd.1
      description := String.mk (underscoresToSpaces vd.2)
      filename := f.name
      checksum := _calculate_checksum f.content
      sql_content := f.content })

def scriptKey (m : MigrationScript) : List Int := _version_to_tuple m.version

def scriptLe (a b : MigrationScript) : Bool := tupLe (scriptKey a) (scriptKey b)

/-- Embeds PostgreSQLMigrationEngine.discover_migrations: parse each
matching file, then migrations.sort(key=_version_to_tuple) — a stable
sort comparing the version tuples, modelled by the stable mergeSort. -/
def discover_migrations (files : List PGFile) : List MigrationScript :=
  (files.filterMap pgToScript).mergeSort scriptLe

/-! ## Planner, validator, history recording -/

/-- Embeds get_pending_migrations given the discovered and applied lists:
applied_versions is the set-comprehension over truthy versions
(if m[version] — an empty or NULL version string is falsy and excluded),
pending filters discovered by version membership. Pure function of its
two arguments by construction. -/
def pg_get_pending (discovered : List MigrationScript)
    (applied : List AppliedMigrationRow) : List MigrationScript :=
  let applied_versions := (applied.filter (fun r => r.version ≠ "")).map (fun r => r.version)
  discovered.filter (fun m => !(applied_versions.contains m.version))

/-- Last-wins lookup, embedding the dict comprehension
(m.version: m for m in discover_migrations()). -/
def lookupLastVersion (l : List MigrationScript) (v : String) : Option MigrationScript :=
  l.foldl (fun acc m => if m.version = v then some m else acc) none

/-- Python inequality between a str and an int: values of different types
never compare equal, so x != y is always True. This is exactly the
comparison validate_migrations performs between the freshly computed
checksum (a str) and the INTEGER column value (an int). -/
def pyStrNeInt (_s : String) (_i : Int) : Bool := true

/-- Embeds PostgreSQLMigrationEngine.validate_migrations: for every
applied row whose version has a currently discovered script, compare
checksums with !=; any mismatch clears validation_passed. -/
def validate_migrations (applied : List AppliedMigrationRow)
    (current : List MigrationScript) : Bool :=
  applied.foldl (fun validation_passed a =>
    match lookupLastVersion current a.version with
    | some m => if pyStrNeInt m.checksum a.checksum then false else validation_passed
    | none => validation_passed) true

/-- SELECT COALESCE(MAX(installed_rank), 0) of the current table. -/
def maxRank (h : List AppliedMigrationRow) : Nat :=
  h.foldl (fun a r => max a r.installed_rank) 0

/-- Python int() applied to the checksum string of a MigrationScript when
inserting (int(migration.checksum)); the .getD 0 branch is unreachable on
strings produced by _calculate_checksum, which always parse. -/
def pyIntDefault (s : String) : Int := (pyIntOfChars s.data).getD 0

/-- The row the INSERT of _record_migration builds, at a given rank. -/
def mkAppliedRow (user : String) (rank : Nat) (m : MigrationScript)
    (success : Bool) (execution_time : Nat) : AppliedMigrationRow :=
  { installed_rank := rank
    version := m.version
    description := m.description
    type := "SQL"
    script := m.filename
    checksum := pyIntDefault m.checksum
    installed_by := user
    execution_time := execution_time
    success := success }

/-- Embeds _record_migration: computes next_rank as COALESCE(MAX,0)+1 and
inserts exactly one row. user stands for the external getpass result. -/
def _record_migration (user : String) (h : List AppliedMigrationRow)
    (m : MigrationScript) (success : Bool) (execution_time : Nat) :
    List AppliedMigrationRow :=
  h ++ [mkAppliedRow user (maxRank h + 1) m success execution_time]

/-- Embeds _execute_single_migration. runSql is the oracle for
cursor.execute(migration.sql_content) against the external database:
ok on success, error with the exception text on failure. Success records
via _record_migration_success (execution_time 0), failure via
_record_migration_failure (execution_time 0). -/
def _execute_single_migration (runSql : String → Except String Unit)
    (user : String) (h : List AppliedMigrationRow) (m : MigrationScript) :
    MigrationResult × List AppliedMigrationRow :=
  match runSql m.sql_content with
  | .ok _ =>
    ({ version := m.version, description := m.description, type := "SQL"
       state := "Success", script := some m.filename, checksum := some m.checksum
       execution_time := 0, error_details := none, successful := true },
     _record_migration user h m true 0)
  | .error e =>
    ({ version := m.version, description := m.description, type := "SQL"
       state := "Failed", script := some m.filename, checksum := some m.checksum
       execution_time := 0, error_details := some e, successful := false },
     _record_migration user h m false 0)

/-- The for-loop of execute_migrations over the pending list: run one
migration, overwrite result.execution_time with the measured wall-clock
milliseconds (clock i for the i-th attempt), append the result, and stop
on first failure. execute_migrations is exactly this loop applied to
get_pending_migrations() with i = 0. -/
def executeLoop (runSql : String → Except String Unit) (user : String)
    (clock : Nat → Nat) :
    List MigrationScript → List AppliedMigrationRow → Nat →
    List MigrationResult × List AppliedMigrationRow
  | [], h, _ => ([], h)
  | m :: rest, h, i =>
    let step := _execute_single_migration runSql user h m
    let r := { step.1 with execution_time := clock i }
    if step.1.successful then
      let next := executeLoop runSql user clock rest step.2 (i + 1)
      (r :: next.1, next.2)
    else ([r], step.2)

/-- Embeds execute_migrations given the discovered files and the current
history (after initialize_schema_history has ensured the table exists). -/
def execute_migrations (runSql : String → Except String Unit) (user : String)
    (clock : Nat → Nat) (files : List PGFile) (h : List AppliedMigrationRow) :
    List MigrationResult × List AppliedMigrationRow :=
  executeLoop runSql user clock (pg_get_pending (discover_migrations files) h) h 0

/-! ## MongoDB engine (mongodb_engine.py)

The json.loads result for a migration file is supplied as input. Only two
facets of a decoded JSON value matter to the engine code the claims touch:
whether it is a string (a non-string version makes version.split raise
AttributeError during the sort) and its value when it is one, so a decoded
value is modelled as jstr or jother. The MD5 checksum, file_path and the
operations payload are omitted from the mongo model: no claim consults
them, and operation execution is abstracted by the runOps oracle. -/

inductive JVal where
  | jstr (s : String)
  | jother
deriving DecidableEq, Repr

/-- One file of migrations/mongodb in filesystem enumeration order.
decoded = none models a json.JSONDecodeError (or a read error); both are
caught per file. A decoded non-object JSON value is behaviorally an
object in which the required keys are not found (any other shape either
fails the membership test or raises inside the per-file try block, which
catches every exception), so decoded objects are field lists. -/
structure MongoFile where
  name : String
  decoded : Option (List (String × JVal))
deriving DecidableEq, Repr

def jlookup (fields : List (String × JVal)) (k : String) : Option JVal :=
  (fields.find? (fun p => p.1 = k)).map (fun p => p.2)

/-- Embeds the MongoMigrationScript dataclass fields the claims use. -/
structure MongoMigrationScript where
  version : JVal
  description : JVal
  filename : String
deriving DecidableEq, Repr

structure MongoMigrationResult where
  version : JVal
  description : JVal
  type : String
  state : String
  script : Option String
  execution_time : Nat
  error_details : Option String
  successful : Bool
  operations_count : Nat
deriving DecidableEq, Repr

/-- One document of the migration_history collection (checksum and
installed_on omitted: no claim consults them on the mongo side). -/
structure MongoHistDoc where
  version : JVal
  description : JVal
  type : String
  script : String
  installed_by : String
  execution_time : Nat
  success : Bool
  operations_count : Nat
  error_message : Option String
deriving DecidableEq, Repr

/-- Per-file step of MongoDBMigrationEngine.discover_migrations: a file
whose JSON fails to decode, or whose decoded object misses the version or
description key, is skipped (the source logs and continues). -/
def mongoKeep (f : MongoFile) : Option MongoMigrationScript :=
  match f.decoded with
  | none => none
  | some fields =>
    match jlookup fields "version", jlookup fields "description" with
    | some v, some d => some { version := v, description := d, filename := f.name }
    | _, _ => none

/-- Sort key of a kept mongo script; on a non-string version the source
raises instead (handled in mongo_discover), so the jother branch value is
never consulted there. -/
def mongoKey (m : MongoMigrationScript) : List Int :=
  match m.version with
  | .jstr s => _version_to_tuple s
  | .jother => [0]

def mongoVersionIsStr (m : MongoMigrationScript) : Bool :=
  match m.version with
  | .jstr _ => true
  | .jother => false

def mongoLe (a b : MongoMigrationScript) : Bool := tupLe (mongoKey a) (mongoKey b)

/-- Embeds MongoDBMigrationEngine.discover_migrations: keep the
well-formed files, then migrations.sort(key=_version_to_tuple). The sort
key calls version.split; when a kept version is not a str that raises an
AttributeError which no handler catches (the per-file try block is already
closed), aborting discovery — modelled by the error branch. -/
def mongo_discover (files : List MongoFile) :
    Except String (List MongoMigrationScript) :=
  let kept := files.filterMap mongoKeep
  if kept.all mongoVersionIsStr then .ok (kept.mergeSort mongoLe)
  else .error "AttributeError: split"

/-- Embeds the mongo get_pending_migrations list computation: the applied
version set has no truthiness filter here (unlike the relational engine). -/
def mongo_get_pending (discovered : List MongoMigrationScript)
    (applied : List MongoHistDoc) : List MongoMigrationScript :=
  discovered.filter (fun m => !((applied.map (fun d => d.version)).contains m.version))

/-- Embeds mongo _record_migration: insert_one of exactly one document;
error_message present only when given. -/
def mkMongoDoc (user : String) (m : MongoMigrationScript) (success : Bool)
    (execution_time : Nat) (operations_count : Nat)
    (error_msg : Option String) : MongoHistDoc :=
  { version := m.version
    description := m.description
    type := "NoSQL"
    script := m.filename
    installed_by := user
    execution_time := execution_time
    success := success
    operations_count := operations_count
    error_message := error_msg }

def mongo_record (user : String) (h : List MongoHistDoc)
    (m : MongoMigrationScript) (success : Bool) (execution_time : Nat)
    (operations_count : Nat) (error_msg : Option String) : List MongoHistDoc :=
  h ++ [mkMongoDoc user m success execution_time operations_count error_msg]

/-- Embeds mongo _execute_single_migration. runOps abstracts the four
operation phases (collections, indexes, data, aggregations) against the
external store: ok with the summed operations count, or error with the
exception text and the count accumulated before the exception. On success
the record carries the full count; on failure the record carries
operations_count 0 while the returned result carries the partial count,
exactly as in the source. -/
def mongo_execute_single
    (runOps : MongoMigrationScript → Except (String × Nat) Nat)
    (user : String) (h : List MongoHistDoc) (m : MongoMigrationScript) :
    MongoMigrationResult × List MongoHistDoc :=
  match runOps m with
  | .ok n =>
    ({ version := m.version, description := m.description, type := "NoSQL"
       state := "Success", script := some m.filename, execution_time := 0
       error_details := none, successful := true, operations_count := n },
     mongo_record user h m true 0 n none)
  | .error en =>
    ({ version := m.version, description := m.description, type := "NoSQL"
       state := "Failed", script := some m.filename, execution_time := 0
       error_details := some en.1, successful := false, operations_count := en.2 },
     mongo_record user h m false 0 0 (some en.1))

/-- The for-loop of mongo execute_migrations: same fail-fast shape as the
relational engine, with clock i the measured milliseconds of attempt i. -/
def mongoExecuteLoop (runOps : MongoMigrationScript → Except (String × Nat) Nat)
    (user : String) (clock : Nat → Nat) :
    List MongoMigrationScript → List MongoHistDoc → Nat →
    List MongoMigrationResult × List MongoHistDoc
  | [], h, _ => ([], h)
  | m :: rest, h, i =>
    let step := mongo_execute_single runOps user h m
    let r := { step.1 with execution_time := clock i }
    if step.1.successful then
      let next := mongoExecuteLoop runOps user clock rest step.2 (i + 1)
      (r :: next.1, next.2)
    else ([r], step.2)

/-- Embeds mongo execute_migrations given the already-discovered script
list (discovery must have returned normally) and the current history. -/
def mongo_execute_migrations
    (runOps : MongoMigrationScript → Except (String × Nat) Nat)
    (user : String) (clock : Nat → Nat)
    (discovered : List MongoMigrationScript) (h : List MongoHistDoc) :
    List MongoMigrationResult × List MongoHistDoc :=
  mongoExecuteLoop runOps user clock (mongo_get_pending discovered h) h 0

/-! ## Execution control (execution_control.py) -/

/-- Substring containment, Python needle in haystack. -/
def startsWithChars : List Char → List Char → Bool
  | [], _ => true
  | _ :: _, [] => false
  | a :: as, b :: bs => a = b && startsWithChars as bs

def containsSubstring (needle : List Char) : List Char → Bool
  | [] => startsWithChars needle []
  | c :: t => startsWithChars needle (c :: t) || containsSubstring needle t

def doesNotExist : String := "does not exist"

/-- Embeds the error handling of get_applied_migrations: fetch is the
outcome of the SELECT against the external database (error carries
str(e) of the psycopg2.Error). A missing-table error degrades to the
empty list; any other database error propagates. -/
def get_applied_migrations (fetch : Except String (List AppliedMigrationRow)) :
    Except String (List AppliedMigrationRow) :=
  match fetch with
  | .ok rows => .ok rows
  | .error e =>
    if containsSubstring doesNotExist.data e.data then .ok []
    else .error e

/-- Embeds the error handling of ExecutionControl.complete_execution:
db is the combined outcome of the duration SELECT plus the UPDATE (ok
carries the computed duration_seconds, with the no-row case already
folded to 0 by the source; error carries str(e)). A missing-table error
returns duration 0 as a soft no-op; any other error propagates. -/
def complete_execution (db : Except String Int) : Except String Int :=
  match db with
  | .ok duration_seconds => .ok duration_seconds
  | .error e =>
    if containsSubstring doesNotExist.data e.data then .ok 0
    else .error e

/-- Existence flags for everything clean_database_schemas drops. -/
structure DatabaseState where
  migration_execution_history : Bool
  flyway_schema_history : Bool
  account_audit : Bool
  accounts : Bool
  account_number_seq : Bool
deriving DecidableEq, Repr

/-- Embeds ExecutionControl.clean_database_schemas: without confirm it
returns False having touched nothing; with confirm it drops the control
table, the flyway history table and the co-located application tables and
sequence (DROP ... IF EXISTS), returning True. A database error during
the drops would re-raise; the drops themselves are modelled as
succeeding. -/
def clean_database_schemas (confirm : Bool) (s : DatabaseState) :
    Bool × DatabaseState :=
  if confirm then
    (true, { migration_execution_history := false
             flyway_schema_history := false
             account_audit := false
             accounts := false
             account_number_seq := false })
  else (false, s)

/-! ## Further definitions used by the verification -/

/-- Replaces every line feed by a carriage-return line-feed pair:
the same content saved with Windows line endings. -/
def expandLF : List Char → List Char
  | [] => []
  | c :: rest => if c = '\n' then '\r' :: '\n' :: expandLF rest else c :: expandLF rest

/-- Modelled from the spec data model: a well-formed version is
dot-separated non-negative integers, the grammar [0-9]+(\.[0-9]+)* of the
spec and of the relational filename regex. Used only to compare the
claimed sort-key behavior with the code, never by the embedded code
itself. -/
def versionWellFormed (v : String) : Bool :=
  (splitDot v.data).all (fun p => !p.isEmpty && p.all Char.isDigit)

def pgResultOk (m : MigrationScript) (t : Nat) : MigrationResult :=
  { version := m.version, description := m.description, type := "SQL",
    state := "Success", script := some m.filename, checksum := some m.checksum,
    execution_time := t, error_details := none, successful := true }

def pgResultErr (m : MigrationScript) (e : String) (t : Nat) : MigrationResult :=
  { version := m.version, description := m.description, type := "SQL",
    state := "Failed", script := some m.filename, checksum := some m.checksum,
    execution_time := t, error_details := some e, successful := false }

def mongoResultOk (m : MongoMigrationScript) (n t : Nat) : MongoMigrationResult :=
  { version := m.version, description := m.description, type := "NoSQL",
    state := "Success", script := some m.filename, execution_time := t,
    error_details := none, successful := true, operations_count := n }

def mongoResultErr (m : MongoMigrationScript) (en : String × Nat) (t : Nat) :
    MongoMigrationResult :=
  { version := m.version, description := m.description, type := "NoSQL",
    state := "Failed", script := some m.filename, execution_time := t,
    error_details := some en.1, successful := false, operations_count := en.2 }

/-! ## Concrete inputs used to exercise the definitions -/

/-- A descriptor whose content is empty: its CRC32 is 0, so the stored
INTEGER checksum and the computed checksum string agree in value. -/
def c1Script : MigrationScript :=
  { version := "1.0", description := "init", filename := "V1.0__init.sql",
    checksum := _calculate_checksum "", sql_content := "" }

/-- The four-version directory of the ordering property, with empty
contents (content does not influence ordering). -/
def demoFiles : List PGFile :=
  [⟨"V1.2__a.sql", ""⟩, ⟨"V1.10__b.sql", ""⟩, ⟨"V2.0__c.sql", ""⟩,
   ⟨"V1.2.1__d.sql", ""⟩]

def wA : MigrationScript :=
  { version := "1", description := "a", filename := "V1__a.sql",
    checksum := "0", sql_content := "ok1" }

def wB : MigrationScript :=
  { version := "2", description := "b", filename := "V2__b.sql",
    checksum := "0", sql_content := "bad" }

def wC : MigrationScript :=
  { version := "3", description := "c", filename := "V3__c.sql",
    checksum := "0", sql_content := "ok3" }

/-- SQL oracle that fails exactly on the content of wB. -/
def wRunSql : String → Except String Unit :=
  fun s => if s = "bad" then .error "boom" else .ok ()

def mwA : MongoMigrationScript :=
  { version := .jstr "1", description := .jstr "a", filename := "m1.json" }

def mwB : MongoMigrationScript :=
  { version := .jstr "2", description := .jstr "b", filename := "m2.json" }

def mwC : MongoMigrationScript :=
  { version := .jstr "3", description := .jstr "c", filename := "m3.json" }

/-- Operations oracle that fails exactly on mwB, after one operation. -/
def wRunOps : MongoMigrationScript → Except (String × Nat) Nat :=
  fun m => if m.version = .jstr "2" then .error ("boom", 1) else .ok 2

/-- A directory with one undecodable file, one file missing the required
keys and one well-formed file. -/
def c6Files : List MongoFile :=
  [⟨"bad.json", none⟩,
   ⟨"nokeys.json", some [("other", .jstr "x")]⟩,
   ⟨"good.json", some [("version", .jstr "1.0"), ("description", .jstr "init")]⟩]

/-! ## Order lemmas for the version-tuple comparison -/

theorem tupLt_asymm : ∀ x y : List Int, tupLt x y = true → tupLt y x = true → False
  | [], [], h, _ => by simp [tupLt] at h
  | [], _ :: _, _, h2 => by simp [tupLt] at h2
  | _ :: _, [], h1, _ => by simp [tupLt] at h1
  | a :: as, b :: bs, h1, h2 => by
    rcases lt_trichotomy a b with hab | hab | hab
    · simp [tupLt, hab, not_lt_of_gt hab, lt_irrefl] at h2
    · subst hab
      simp [tupLt, lt_irrefl] at h1 h2
      exact tupLt_asymm as bs h1 h2
    · simp [tupLt, hab, not_lt_of_gt hab, lt_irrefl] at h1

theorem tupLt_trans : ∀ x y z : List Int,
    tupLt x y = true → tupLt y z = true → tupLt x z = true
  | [], _, _ :: _, _, _ => by simp [tupLt]
  | [], y, [], _, h2 => by cases y <;> simp [tupLt] at h2
  | _ :: _, [], _, h1, _ => by simp [tupLt] at h1
  | _ :: _, _ :: _, [], _, h2 => by simp [tupLt] at h2
  | a :: as, b :: bs, c :: cs, h1, h2 => by
    rcases lt_trichotomy a b with hab | hab | hab
    · rcases lt_trichotomy b c with hbc | hbc | hbc
      · simp [tupLt, lt_trans hab hbc]
      · subst hbc; simp [tupLt, hab]
      · simp [tupLt, hbc, not_lt_of_gt hbc, lt_irrefl] at h2
    · subst hab
      rcases lt_trichotomy a c with hac | hac | hac
      · simp [tupLt, hac]
      · subst hac
        simp [tupLt, lt_irrefl] at h1 h2 ⊢
        exact tupLt_trans as bs cs h1 h2
      · simp [tupLt, hac, not_lt_of_gt hac, lt_irrefl] at h2
    · simp [tupLt, hab, not_lt_of_gt hab, lt_irrefl] at h1

theorem tupLt_connex : ∀ x y : List Int,
    tupLt x y = false → tupLt y x = false → x = y
  | [], [], _, _ => rfl
  | [], _ :: _, h1, _ => by simp [tupLt] at h1
  | _ :: _, [], _, h2 => by simp [tupLt] at h2
  | a :: as, b :: bs, h1, h2 => by
    rcases lt_trichotomy a b with hab | hab | hab
    · simp [tupLt, hab] at h1
    · subst hab
      simp [tupLt, lt_irrefl] at h1 h2
      rw [tupLt_connex as bs h1 h2]
    · simp [tupLt, hab] at h2

theorem tupLe_total (x y : List Int) : (tupLe x y || tupLe y x) = true := by
  by_contra h
  simp [tupLe] at h
  exact tupLt_asymm y x h.1 h.2

theorem tupLe_trans {x y z : List Int} (h1 : tupLe x y = true)
    (h2 : tupLe y z = true) : tupLe x z = true := by
  simp [tupLe] at h1 h2 ⊢
  cases hzx : tupLt z x with
  | false => rfl
  | true =>
    cases hxy : tupLt x y with
    | false =>
      rw [tupLt_connex x y hxy h1] at hzx
      rw [h2] at hzx; exact Bool.noConfusion hzx
    | true =>
      have h3 := tupLt_trans z x y hzx hxy
      rw [h2] at h3; exact Bool.noConfusion h3

theorem tupLe_ne_lt {x y : List Int} (hle : tupLe x y = true) (hne : x ≠ y) :
    tupLt x y = true := by
  simp [tupLe] at hle
  cases hxy : tupLt x y with
  | false => exact absurd (tupLt_connex x y hxy hle) hne
  | true => rfl

theorem scriptLe_trans (a b c : MigrationScript) (h1 : scriptLe a b = true)
    (h2 : scriptLe b c = true) : scriptLe a c = true :=
  tupLe_trans h1 h2

theorem scriptLe_total (a b : MigrationScript) :
    (scriptLe a b || scriptLe b a) = true :=
  tupLe_total _ _

theorem mongoLe_trans (a b c : MongoMigrationScript) (h1 : mongoLe a b = true)
    (h2 : mongoLe b c = true) : mongoLe a c = true :=
  tupLe_trans h1 h2

theorem mongoLe_total (a b : MongoMigrationScript) :
    (mongoLe a b || mongoLe b a) = true :=
  tupLe_total _ _

/-- A le-sorted list whose keys are pairwise distinct is strictly sorted,
and a permutation of a strictly sorted list that is itself le-sorted is
equal to it: sortedness plus distinct keys determine the list uniquely. -/
theorem sorted_perm_nodup_eq {l₁ l₂ : List MigrationScript}
    (p : l₁.Perm l₂)
    (s₁ : l₁.Pairwise (fun a b => scriptLe a b = true))
    (s₂ : l₂.Pairwise (fun a b => scriptLe a b = true))
    (nd : (l₁.map scriptKey).Nodup) : l₁ = l₂ := by
  haveI : IsAntisymm MigrationScript
      (fun a b => tupLt (scriptKey a) (scriptKey b) = true) :=
    ⟨fun a b h1 h2 => (tupLt_asymm _ _ h1 h2).elim⟩
  apply List.eq_of_perm_of_sorted
      (r := fun a b => tupLt (scriptKey a) (scriptKey b) = true) p
  · have ndp : l₁.Pairwise (fun a b => scriptKey a ≠ scriptKey b) :=
      List.pairwise_map.mp nd
    exact (s₁.and ndp).imp (fun h => tupLe_ne_lt h.1 h.2)
  · have nd₂ : (l₂.map scriptKey).Nodup := ((p.map scriptKey).nodup_iff).mp nd
    have ndp : l₂.Pairwise (fun a b => scriptKey a ≠ scriptKey b) :=
      List.pairwise_map.mp nd₂
    exact (s₂.and ndp).imp (fun h => tupLe_ne_lt h.1 h.2)

/-! ## Line-ending normalization lemmas -/

theorem pyReplaceCRLF_no_cr : ∀ l : List Char, '\r' ∉ l → pyReplaceCRLF l = l
  | [], _ => rfl
  | [_], _ => rfl
  | c1 :: c2 :: rest, h => by
    have h1 : c1 ≠ '\r' := fun e => h (by simp [e])
    have h2 : '\r' ∉ c2 :: rest := fun m => h (List.mem_cons_of_mem _ m)
    have hcond : ¬(c1 = '\r' ∧ c2 = '\n') := fun hc => h1 hc.1
    simp only [pyReplaceCRLF, if_neg hcond]
    rw [pyReplaceCRLF_no_cr (c2 :: rest) h2]

theorem pyReplaceCR_no_cr {l : List Char} (h : '\r' ∉ l) : pyReplaceCR l = l := by
  induction l with
  | nil => rfl
  | cons c t ih =>
    have h1 : c ≠ '\r' := fun e => h (by simp [e])
    have h2 : '\r' ∉ t := fun m => h (List.mem_cons_of_mem _ m)
    simp [pyReplaceCR, h1] at ih ⊢
    exact ih h2

theorem mem_pyReplaceCR_ne_cr {l : List Char} {c : Char}
    (hc : c ∈ pyReplaceCR l) : c ≠ '\r' := by
  rcases List.mem_map.mp hc with ⟨a, _, ha⟩
  intro hcr
  subst hcr
  by_cases h : a = '\r'
  · rw [if_pos h] at ha; exact absurd ha (by decide)
  · rw [if_neg h] at ha; exact h ha

theorem no_cr_normalizeLineEndings (l : List Char) :
    '\r' ∉ normalizeLineEndings l :=
  fun m => (mem_pyReplaceCR_ne_cr m) rfl

theorem normalizeLineEndings_idem (l : List Char) :
    normalizeLineEndings (normalizeLineEndings l) = normalizeLineEndings l := by
  have h := no_cr_normalizeLineEndings l
  show pyReplaceCR (pyReplaceCRLF (normalizeLineEndings l)) = normalizeLineEndings l
  rw [pyReplaceCRLF_no_cr _ h, pyReplaceCR_no_cr h]

theorem expandLF_nil_iff : ∀ l : List Char, expandLF l = [] ↔ l = [] := by
  intro l
  cases l with
  | nil => simp [expandLF]
  | cons c t =>
    constructor
    · intro h
      by_cases hc : c = '\n' <;> simp [expandLF, hc] at h
    · intro h; exact absurd h (by simp)

theorem pyReplaceCRLF_crlf (rest : List Char) :
    pyReplaceCRLF ('\r' :: '\n' :: rest) = '\n' :: pyReplaceCRLF rest := rfl

theorem pyReplaceCRLF_cons_cons {c1 c2 : Char} (rest : List Char)
    (h : ¬(c1 = '\r' ∧ c2 = '\n')) :
    pyReplaceCRLF (c1 :: c2 :: rest) = c1 :: pyReplaceCRLF (c2 :: rest) := by
  simp only [pyReplaceCRLF, if_neg h]

theorem pyReplaceCRLF_expandLF : ∀ l : List Char, '\r' ∉ l →
    pyReplaceCRLF (expandLF l) = l
  | [], _ => rfl
  | c :: rest, h => by
    have h1 : c ≠ '\r' := fun e => h (by simp [e])
    have h2 : '\r' ∉ rest := fun m => h (List.mem_cons_of_mem _ m)
    by_cases hc : c = '\n'
    · subst hc
      rw [show expandLF ('\n' :: rest) = '\r' :: '\n' :: expandLF rest from by
        simp [expandLF]]
      rw [pyReplaceCRLF_crlf, pyReplaceCRLF_expandLF rest h2]
    · rw [show expandLF (c :: rest) = c :: expandLF rest from by
        simp [expandLF, hc]]
      cases he : expandLF rest with
      | nil =>
        have hr : rest = [] := (expandLF_nil_iff rest).mp he
        subst hr
        rfl
      | cons d t =>
        rw [pyReplaceCRLF_cons_cons t (fun hx => h1 hx.1), ← he,
          pyReplaceCRLF_expandLF rest h2]

theorem normalizeLineEndings_expandLF {l : List Char} (h : '\r' ∉ l) :
    normalizeLineEndings (expandLF l) = normalizeLineEndings l := by
  unfold normalizeLineEndings
  rw [pyReplaceCRLF_expandLF l h, pyReplaceCRLF_no_cr l h]

/-! ## CRC32 range lemmas -/

theorem crcRound_lt {c : Nat} (h : c < 2 ^ 32) : crcRound c < 2 ^ 32 := by
  unfold crcRound
  have hdiv : c / 2 < 2 ^ 32 := lt_of_le_of_lt (Nat.div_le_self c 2) h
  split
  · exact Nat.xor_lt_two_pow hdiv (by norm_num)
  · exact hdiv

theorem crcUpdateByte_lt {c b : Nat} (hc : c < 2 ^ 32) (hb : b < 2 ^ 32) :
    crcUpdateByte c b < 2 ^ 32 := by
  unfold crcUpdateByte
  exact crcRound_lt (crcRound_lt (crcRound_lt (crcRound_lt (crcRound_lt
    (crcRound_lt (crcRound_lt (crcRound_lt (Nat.xor_lt_two_pow hc hb))))))))

theorem utf8EncodeChar_lt (c : Char) : ∀ b ∈ utf8EncodeChar c, b < 2 ^ 32 := by
  intro b hb
  have hand : ∀ m : Nat, m &&& 0x3F < 2 ^ 32 :=
    fun m => lt_of_le_of_lt (Nat.and_le_right) (by norm_num)
  have hor : ∀ x y : Nat, x < 2 ^ 32 → y < 2 ^ 32 → (x ||| y) < 2 ^ 32 :=
    fun x y hx hy => Nat.or_lt_two_pow hx hy
  have hsh : ∀ (m k : Nat), m < 2 ^ 32 → m >>> k < 2 ^ 32 := fun m k hm => by
    rw [Nat.shiftRight_eq_div_pow]
    exact lt_of_le_of_lt (Nat.div_le_self _ _) hm
  have hval : c.toNat < 2 ^ 32 := by
    show c.val.toNat < 2 ^ 32
    have h32 := c.val.toNat_lt
    omega
  by_cases h1 : c.toNat < 0x80
  · simp [utf8EncodeChar, h1] at hb; omega
  · by_cases h2 : c.toNat < 0x800
    · simp [utf8EncodeChar, h1, h2] at hb
      rcases hb with hb | hb <;> subst hb
      · exact hor _ _ (by norm_num) (hsh _ _ hval)
      · exact hor _ _ (by norm_num) (hand _)
    · by_cases h3 : c.toNat < 0x10000
      · simp [utf8EncodeChar, h1, h2, h3] at hb
        rcases hb with hb | hb | hb <;> subst hb
        · exact hor _ _ (by norm_num) (hsh _ _ hval)
        · exact hor _ _ (by norm_num) (hand _)
        · exact hor _ _ (by norm_num) (hand _)
      · simp [utf8EncodeChar, h1, h2, h3] at hb
        rcases hb with hb | hb | hb | hb <;> subst hb
        · exact hor _ _ (by norm_num) (hsh _ _ hval)
        · exact hor _ _ (by norm_num) (hand _)
        · exact hor _ _ (by norm_num) (hand _)
        · exact hor _ _ (by norm_num) (hand _)

theorem foldl_crc_lt : ∀ (bytes : List Nat) (c : Nat), c < 2 ^ 32 →
    (∀ b ∈ bytes, b < 2 ^ 32) → bytes.foldl crcUpdateByte c < 2 ^ 32
  | [], c, hc, _ => hc
  | b :: rest, c, hc, hb => by
    simp only [List.foldl_cons]
    exact foldl_crc_lt rest _ (crcUpdateByte_lt hc (hb b (by simp)))
      (fun x hx => hb x (by simp [hx]))

theorem mem_utf8Encode_lt (l : List Char) : ∀ b ∈ utf8Encode l, b < 2 ^ 32 := by
  induction l with
  | nil => intro b hb; simp [utf8Encode] at hb
  | cons c t ih =>
    intro b hb
    simp only [utf8Encode, List.foldr_cons, List.mem_append] at hb
    rcases hb with hb | hb
    · exact utf8EncodeChar_lt c b hb
    · exact ih b hb

theorem crc32_lt (bytes : List Nat) (h : ∀ b ∈ bytes, b < 2 ^ 32) :
    crc32 bytes < 2 ^ 32 := by
  unfold crc32
  exact Nat.xor_lt_two_pow (foldl_crc_lt bytes _ (by norm_num) h) (by norm_num)

theorem checksumInt_range (s : String) :
    -(2 ^ 31) ≤ checksumInt s ∧ checksumInt s < 2 ^ 31 := by
  have h : crc32 (utf8Encode (normalizeLineEndings s.data)) < 2 ^ 32 :=
    crc32_lt _ (mem_utf8Encode_lt _)
  unfold checksumInt crcChecksumOfChars toSigned
  split <;> constructor <;> push_cast <;> omega

/-! ## Version-grammar lemmas -/

theorem digit_not_space {c : Char} (h : c.isDigit = true) : pyIsSpace c = false := by
  cases hs : pyIsSpace c with
  | false => rfl
  | true =>
    exfalso
    simp [pyIsSpace] at hs
    rcases hs with ((((e | e) | e) | e) | e) | e <;> subst e <;>
      exact absurd h (by decide)

theorem dropWhile_no_match {f : Char → Bool} :
    ∀ l : List Char, (∀ c ∈ l, f c = false) → l.dropWhile f = l
  | [], _ => rfl
  | c :: t, h => by
    have hc : f c = false := h c (by simp)
    simp [List.dropWhile, hc]

theorem stripWs_all_digits {p : List Char} (h : ∀ c ∈ p, c.isDigit = true) :
    stripWs p = p := by
  unfold stripWs
  have h1 : ∀ c ∈ p, pyIsSpace c = false := fun c hc => digit_not_space (h c hc)
  rw [dropWhile_no_match p h1]
  rw [dropWhile_no_match p.reverse (fun c hc => h1 c (List.mem_reverse.mp hc))]
  exact List.reverse_reverse p

theorem duTail_cons_ne (c : Char) (rest : List Char) (h : ¬ c = '_') :
    duTail (c :: rest) = (c.isDigit && duTail rest) := by
  conv_lhs => unfold duTail
  rw [if_neg h]

theorem duTail_all_digits : ∀ p : List Char, (∀ c ∈ p, c.isDigit = true) →
    duTail p = true
  | [], _ => rfl
  | c :: rest, h => by
    have hc : c.isDigit = true := h c (by simp)
    have hne : c ≠ '_' := fun e => by subst e; exact absurd hc (by decide)
    have h2 : ∀ d ∈ rest, d.isDigit = true := fun d hd => h d (by simp [hd])
    rw [duTail_cons_ne c rest hne, hc, duTail_all_digits rest h2]
    rfl

theorem pyIntOfChars_digits : ∀ p : List Char, p ≠ [] →
    (∀ c ∈ p, c.isDigit = true) →
    pyIntOfChars p = some (Int.ofNat (digitsVal p))
  | [], hne, _ => absurd rfl hne
  | c :: t, _, hd => by
    have hc : c.isDigit = true := hd c (by simp)
    have hok : duOk (c :: t) = true := by
      simp [duOk, hc]
      exact duTail_all_digits t (fun d hdt => hd d (by simp [hdt]))
    have hstrip : stripWs (c :: t) = c :: t := stripWs_all_digits hd
    have hplus : c ≠ '+' := fun e => by subst e; exact absurd hc (by decide)
    have hminus : c ≠ '-' := fun e => by subst e; exact absurd hc (by decide)
    unfold pyIntOfChars
    rw [hstrip]
    split
    · rename_i r heq
      injection heq with h1 _
      exact absurd h1 hplus
    · rename_i r heq
      injection heq with h1 _
      exact absurd h1 hminus
    · rw [hok]
      simp

theorem tupLe_zero_cons {k : Int} (hk : 0 ≤ k) (ks : List Int) :
    tupLe [0] (k :: ks) = true := by
  unfold tupLe
  have : tupLt (k :: ks) [0] = false := by
    unfold tupLt
    rcases lt_or_eq_of_le hk with h | h
    · simp [not_lt_of_gt h, h]
    · subst h
      cases ks with
      | nil => simp [tupLt]
      | cons a b => simp [tupLt]
  rw [this]; rfl

theorem splitDot_ne_nil (l : List Char) : splitDot l ≠ [] := by
  unfold splitDot
  split
  · simp
  · simp
  · split <;> simp

theorem versionWellFormed_parts {v : String} (h : versionWellFormed v = true) :
    ∀ p ∈ splitDot v.data, p ≠ [] ∧ ∀ c ∈ p, c.isDigit = true := by
  intro p hp
  unfold versionWellFormed at h
  rw [List.all_eq_true] at h
  have := h p hp
  simp at this
  exact ⟨by
    intro hnil
    rw [hnil] at this
    exact absurd this.1 (by simp [List.isEmpty]), fun c hc => this.2 c hc⟩

/-- A well-formed version parses component-wise and its key is bounded
below by the fallback key (0,). -/
theorem versionWellFormed_key_ge {v : String} (h : versionWellFormed v = true) :
    tupLe [0] (_version_to_tuple v) = true := by
  have hparts := versionWellFormed_parts h
  have hall : (splitDot v.data).all (fun p => (pyIntOfChars p).isSome) = true := by
    rw [List.all_eq_true]
    intro p hp
    have := hparts p hp
    rw [pyIntOfChars_digits p this.1 this.2]
    rfl
  unfold _version_to_tuple
  rw [if_pos hall]
  cases hsd : splitDot v.data with
  | nil => exact absurd hsd (splitDot_ne_nil _)
  | cons p ps =>
    have hmem : p ∈ splitDot v.data := by rw [hsd]; simp
    have hp := hparts p hmem
    simp only [List.map_cons]
    rw [pyIntOfChars_digits p hp.1 hp.2]
    exact tupLe_zero_cons (by simp) _

theorem version_tuple_fallback {v : String}
    (h : (splitDot v.data).all (fun p => (pyIntOfChars p).isSome) = false) :
    _version_to_tuple v = [0] := by
  unfold _version_to_tuple
  rw [h]
  simp

/-! ## Rank lemmas for the relational history -/

theorem le_foldl_max : ∀ (h : List AppliedMigrationRow) (a : Nat),
    a ≤ h.foldl (fun x r => max x r.installed_rank) a
  | [], a => le_refl a
  | r :: t, a =>
    le_trans (le_max_left a r.installed_rank) (le_foldl_max t _)

theorem mem_le_foldl_max : ∀ (h : List AppliedMigrationRow) (a : Nat)
    (r : AppliedMigrationRow), r ∈ h →
    r.installed_rank ≤ h.foldl (fun x q => max x q.installed_rank) a
  | [], _, _, hr => absurd hr (by simp)
  | q :: t, a, r, hr => by
    rcases List.mem_cons.mp hr with he | ht
    · subst he
      exact le_trans (le_max_right a r.installed_rank) (le_foldl_max t _)
    · exact mem_le_foldl_max t _ r ht

theorem rank_le_maxRank {h : List AppliedMigrationRow} {r : AppliedMigrationRow}
    (hr : r ∈ h) : r.installed_rank ≤ maxRank h :=
  mem_le_foldl_max h 0 r hr

/-! ## Discovery lemmas -/

theorem matchMigrationName_fst_ne_nil {name : List Char} {vd : List Char × List Char}
    (h : matchMigrationName name = some vd) : vd.1 ≠ [] := by
  unfold matchMigrationName at h
  split at h
  · rename_i rest
    split at h
    · exact absurd h (by simp)
    · rename_i hd1
      split at h
      · rename_i r3 hr3
        split at h
        · have hv := Option.some.inj h
          rw [← hv]
          intro habs
          exact hd1 (List.append_eq_nil.mp habs).1
        · exact absurd h (by simp)
      · exact absurd h (by simp)
  · exact absurd h (by simp)

theorem pgToScript_version_ne_empty {f : PGFile} {m : MigrationScript}
    (h : pgToScript f = some m) : m.version ≠ "" := by
  unfold pgToScript at h
  cases hm : matchMigrationName f.name.data with
  | none => rw [hm] at h; exact absurd h (by simp)
  | some vd =>
    rw [hm] at h
    simp at h
    have hne := matchMigrationName_fst_ne_nil hm
    rw [← h]
    simp only [ne_eq]
    intro habs
    have : vd.1 = [] := by
      have := congrArg String.data habs
      simpa using this
    exact hne this

theorem discover_version_ne_empty {files : List PGFile} {m : MigrationScript}
    (hm : m ∈ discover_migrations files) : m.version ≠ "" := by
  unfold discover_migrations at hm
  have hmem : m ∈ files.filterMap pgToScript :=
    (List.mergeSort_perm (files.filterMap pgToScript) scriptLe).mem_iff.mp hm
  rcases List.mem_filterMap.mp hmem with ⟨f, _, hf⟩
  exact pgToScript_version_ne_empty hf

theorem discover_sorted (files : List PGFile) :
    (discover_migrations files).Pairwise (fun a b => scriptLe a b = true) :=
  List.sorted_mergeSort scriptLe_trans scriptLe_total (files.filterMap pgToScript)

theorem discover_perm_of_perm {fs₁ fs₂ : List PGFile} (h : fs₁.Perm fs₂) :
    (discover_migrations fs₁).Perm (discover_migrations fs₂) :=
  ((List.mergeSort_perm (fs₁.filterMap pgToScript) scriptLe).trans
    (h.filterMap pgToScript)).trans
    (List.mergeSort_perm (fs₂.filterMap pgToScript) scriptLe).symm

/-! ## Fail-fast execution lemmas -/

theorem executeLoop_failfast (runSql : String → Except String Unit) (user : String)
    (clock : Nat → Nat) (failing : MigrationScript)
    (post : List MigrationScript) (e : String)
    (hfail : runSql failing.sql_content = .error e) :
    ∀ (pre : List MigrationScript) (h : List AppliedMigrationRow) (i : Nat),
      (∀ m ∈ pre, runSql m.sql_content = .ok ()) →
      ((executeLoop runSql user clock (pre ++ failing :: post) h i).1.map
          (fun r => (r.version, r.successful)) =
        pre.map (fun m => (m.version, true)) ++ [(failing.version, false)])
      ∧ ∃ newRows : List AppliedMigrationRow,
          (executeLoop runSql user clock (pre ++ failing :: post) h i).2 =
            h ++ newRows
          ∧ newRows.length = pre.length + 1
          ∧ newRows.map (fun r => (r.version, r.success)) =
              pre.map (fun m => (m.version, true)) ++ [(failing.version, false)]
  | [], h, i, _ => by
    simp only [List.nil_append]
    rw [show executeLoop runSql user clock (failing :: post) h i =
        ([{ version := failing.version, description := failing.description,
            type := "SQL", state := "Failed", script := some failing.filename,
            checksum := some failing.checksum, execution_time := clock i,
            error_details := some e, successful := false }],
          _record_migration user h failing false 0) from by
      simp [executeLoop, _execute_single_migration, hfail]]
    constructor
    · simp
    · exact ⟨_, rfl, by simp [_record_migration, mkAppliedRow], by simp [_record_migration, mkAppliedRow]⟩
  | m :: pre2, h, i, hok => by
    have hm : runSql m.sql_content = .ok () := hok m (by simp)
    have hok2 : ∀ q ∈ pre2, runSql q.sql_content = .ok () :=
      fun q hq => hok q (by simp [hq])
    have ih := executeLoop_failfast runSql user clock failing post e hfail pre2
      (_record_migration user h m true 0) (i + 1) hok2
    rw [show executeLoop runSql user clock ((m :: pre2) ++ failing :: post) h i =
        (({ version := m.version, description := m.description,
            type := "SQL", state := "Success", script := some m.filename,
            checksum := some m.checksum, execution_time := clock i,
            error_details := none, successful := true } :
            MigrationResult) ::
          (executeLoop runSql user clock (pre2 ++ failing :: post)
            (_record_migration user h m true 0) (i + 1)).1,
          (executeLoop runSql user clock (pre2 ++ failing :: post)
            (_record_migration user h m true 0) (i + 1)).2) from by
      simp [executeLoop, _execute_single_migration, hm]]
    constructor
    · simp only [List.map_cons]
      rw [ih.1]
      simp
    · rcases ih.2 with ⟨rows2, hr1, hr2, hr3⟩
      refine ⟨mkAppliedRow user (maxRank h + 1) m true 0 :: rows2, ?_, ?_, ?_⟩
      · rw [hr1]
        simp [_record_migration, mkAppliedRow]
      · simp [hr2]
      · simp only [List.map_cons]
        rw [hr3]
        simp [mkAppliedRow]

theorem mongoExecuteLoop_failfast
    (runOps : MongoMigrationScript → Except (String × Nat) Nat) (user : String)
    (clock : Nat → Nat) (failing : MongoMigrationScript)
    (post : List MongoMigrationScript) (en : String × Nat)
    (hfail : runOps failing = .error en) :
    ∀ (pre : List MongoMigrationScript) (h : List MongoHistDoc) (i : Nat),
      (∀ m ∈ pre, ∃ n : Nat, runOps m = .ok n) →
      ((mongoExecuteLoop runOps user clock (pre ++ failing :: post) h i).1.map
          (fun r => (r.version, r.successful)) =
        pre.map (fun m => (m.version, true)) ++ [(failing.version, false)])
      ∧ ∃ newDocs : List MongoHistDoc,
          (mongoExecuteLoop runOps user clock (pre ++ failing :: post) h i).2 =
            h ++ newDocs
          ∧ newDocs.length = pre.length + 1
          ∧ newDocs.map (fun r => (r.version, r.success)) =
              pre.map (fun m => (m.version, true)) ++ [(failing.version, false)]
  | [], h, i, _ => by
    simp only [List.nil_append]
    rw [show mongoExecuteLoop runOps user clock (failing :: post) h i =
        ([{ version := failing.version, description := failing.description,
            type := "NoSQL", state := "Failed", script := some failing.filename,
            execution_time := clock i, error_details := some en.1,
            successful := false, operations_count := en.2 }],
          mongo_record user h failing false 0 0 (some en.1)) from by
      simp [mongoExecuteLoop, mongo_execute_single, hfail]]
    constructor
    · simp
    · exact ⟨_, rfl, by simp [mongo_record, mkMongoDoc], by simp [mongo_record, mkMongoDoc]⟩
  | m :: pre2, h, i, hok => by
    rcases hok m (by simp) with ⟨n, hm⟩
    have hok2 : ∀ q ∈ pre2, ∃ k : Nat, runOps q = .ok k :=
      fun q hq => hok q (by simp [hq])
    have ih := mongoExecuteLoop_failfast runOps user clock failing post en hfail
      pre2 (mongo_record user h m true 0 n none) (i + 1) hok2
    rw [show mongoExecuteLoop runOps user clock ((m :: pre2) ++ failing :: post) h i =
        (({ version := m.version, description := m.description, type := "NoSQL",
            state := "Success", script := some m.filename,
            execution_time := clock i, error_details := none,
            successful := true, operations_count := n } :
            MongoMigrationResult) ::
          (mongoExecuteLoop runOps user clock (pre2 ++ failing :: post)
            (mongo_record user h m true 0 n none) (i + 1)).1,
          (mongoExecuteLoop runOps user clock (pre2 ++ failing :: post)
            (mongo_record user h m true 0 n none) (i + 1)).2) from by
      simp [mongoExecuteLoop, mongo_execute_single, hm]]
    constructor
    · simp only [List.map_cons]
      rw [ih.1]
      simp
    · rcases ih.2 with ⟨docs2, hr1, hr2, hr3⟩
      refine ⟨mkMongoDoc user m true 0 n none :: docs2, ?_, ?_, ?_⟩
      · rw [hr1]
        simp [mongo_record, mkMongoDoc]
      · simp [hr2]
      · simp only [List.map_cons]
        rw [hr3]
        simp [mkMongoDoc]

/-! ## Execution-time bookkeeping lemmas -/

theorem executeLoop_cons_ok (runSql : String → Except String Unit)
    (user : String) (clock : Nat → Nat) (m : MigrationScript)
    (rest : List MigrationScript) (h : List AppliedMigrationRow) (i : Nat)
    (hm : runSql m.sql_content = .ok ()) :
    executeLoop runSql user clock (m :: rest) h i =
      (pgResultOk m (clock i) ::
        (executeLoop runSql user clock rest
          (_record_migration user h m true 0) (i + 1)).1,
       (executeLoop runSql user clock rest
          (_record_migration user h m true 0) (i + 1)).2) := by
  simp [executeLoop, _execute_single_migration, hm, pgResultOk]

theorem executeLoop_cons_err (runSql : String → Except String Unit)
    (user : String) (clock : Nat → Nat) (m : MigrationScript)
    (rest : List MigrationScript) (h : List AppliedMigrationRow) (i : Nat)
    (e : String) (hm : runSql m.sql_content = .error e) :
    executeLoop runSql user clock (m :: rest) h i =
      ([pgResultErr m e (clock i)], _record_migration user h m false 0) := by
  simp [executeLoop, _execute_single_migration, hm, pgResultErr]

theorem executeLoop_times (runSql : String → Except String Unit)
    (user : String) (clock : Nat → Nat) :
    ∀ (l : List MigrationScript) (h : List AppliedMigrationRow) (i : Nat),
      (∃ newRows : List AppliedMigrationRow,
        (executeLoop runSql user clock l h i).2 = h ++ newRows
        ∧ ∀ r ∈ newRows, r.execution_time = 0)
      ∧ (executeLoop runSql user clock l h i).1.map
            (fun r => r.execution_time) =
          (List.range (executeLoop runSql user clock l h i).1.length).map
            (fun j => clock (i + j))
  | [], h, i => by
    constructor
    · exact ⟨[], by simp [executeLoop], by simp⟩
    · simp [executeLoop]
  | m :: rest, h, i => by
    cases hrun : runSql m.sql_content with
    | ok u =>
      cases u
      have heq := executeLoop_cons_ok runSql user clock m rest h i hrun
      have ih := executeLoop_times runSql user clock rest
        (_record_migration user h m true 0) (i + 1)
      constructor
      · rcases ih.1 with ⟨rows2, hr1, hr2⟩
        refine ⟨mkAppliedRow user (maxRank h + 1) m true 0 :: rows2, ?_, ?_⟩
        · rw [heq]
          simp only []
          rw [hr1]
          simp [_record_migration, mkAppliedRow]
        · intro r hr
          rcases List.mem_cons.mp hr with he | ht
          · rw [he]; rfl
          · exact hr2 r ht
      · rw [heq]
        simp only [List.map_cons, List.length_cons]
        rw [ih.2, List.range_succ_eq_map]
        simp only [List.map_cons, List.map_map]
        refine congrArg₂ List.cons (by simp [pgResultOk]) ?_
        refine List.map_congr_left (fun j _ => ?_)
        simp only [Function.comp_apply]
        congr 1
        omega
    | error e =>
      have heq := executeLoop_cons_err runSql user clock m rest h i e hrun
      constructor
      · refine ⟨[mkAppliedRow user (maxRank h + 1) m false 0], ?_, ?_⟩
        · rw [heq]
          simp [_record_migration, mkAppliedRow]
        · intro r hr
          simp at hr
          rw [hr]; rfl
      · rw [heq]
        simp [pgResultErr, show List.range 1 = [0] from rfl]

theorem mongoExecuteLoop_cons_ok
    (runOps : MongoMigrationScript → Except (String × Nat) Nat)
    (user : String) (clock : Nat → Nat) (m : MongoMigrationScript)
    (rest : List MongoMigrationScript) (h : List MongoHistDoc) (i n : Nat)
    (hm : runOps m = .ok n) :
    mongoExecuteLoop runOps user clock (m :: rest) h i =
      (mongoResultOk m n (clock i) ::
        (mongoExecuteLoop runOps user clock rest
          (mongo_record user h m true 0 n none) (i + 1)).1,
       (mongoExecuteLoop runOps user clock rest
          (mongo_record user h m true 0 n none) (i + 1)).2) := by
  simp [mongoExecuteLoop, mongo_execute_single, hm, mongoResultOk]

theorem mongoExecuteLoop_cons_err
    (runOps : MongoMigrationScript → Except (String × Nat) Nat)
    (user : String) (clock : Nat → Nat) (m : MongoMigrationScript)
    (rest : List MongoMigrationScript) (h : List MongoHistDoc) (i : Nat)
    (en : String × Nat) (hm : runOps m = .error en) :
    mongoExecuteLoop runOps user clock (m :: rest) h i =
      ([mongoResultErr m en (clock i)],
        mongo_record user h m false 0 0 (some en.1)) := by
  simp [mongoExecuteLoop, mongo_execute_single, hm, mongoResultErr]

theorem mongoExecuteLoop_times
    (runOps : MongoMigrationScript → Except (String × Nat) Nat)
    (user : String) (clock : Nat → Nat) :
    ∀ (l : List MongoMigrationScript) (h : List MongoHistDoc) (i : Nat),
      (∃ newDocs : List MongoHistDoc,
        (mongoExecuteLoop runOps user clock l h i).2 = h ++ newDocs
        ∧ ∀ r ∈ newDocs, r.execution_time = 0)
      ∧ (mongoExecuteLoop runOps user clock l h i).1.map
            (fun r => r.execution_time) =
          (List.range (mongoExecuteLoop runOps user clock l h i).1.length).map
            (fun j => clock (i + j))
  | [], h, i => by
    constructor
    · exact ⟨[], by simp [mongoExecuteLoop], by simp⟩
    · simp [mongoExecuteLoop]
  | m :: rest, h, i => by
    cases hrun : runOps m with
    | ok n =>
      have heq := mongoExecuteLoop_cons_ok runOps user clock m rest h i n hrun
      have ih := mongoExecuteLoop_times runOps user clock rest
        (mongo_record user h m true 0 n none) (i + 1)
      constructor
      · rcases ih.1 with ⟨docs2, hr1, hr2⟩
        refine ⟨mkMongoDoc user m true 0 n none :: docs2, ?_, ?_⟩
        · rw [heq]
          simp only []
          rw [hr1]
          simp [mongo_record, mkMongoDoc]
        · intro r hr
          rcases List.mem_cons.mp hr with he | ht
          · rw [he]; rfl
          · exact hr2 r ht
      · rw [heq]
        simp only [List.map_cons, List.length_cons]
        rw [ih.2, List.range_succ_eq_map]
        simp only [List.map_cons, List.map_map]
        refine congrArg₂ List.cons (by simp [mongoResultOk]) ?_
        refine List.map_congr_left (fun j _ => ?_)
        simp only [Function.comp_apply]
        congr 1
        omega
    | error en =>
      have heq := mongoExecuteLoop_cons_err runOps user clock m rest h i en hrun
      constructor
      · refine ⟨[mkMongoDoc user m false 0 0 (some en.1)], ?_, ?_⟩
        · rw [heq]
          simp [mongo_record, mkMongoDoc]
        · intro r hr
          simp at hr
          rw [hr]; rfl
      · rw [heq]
        simp [mongoResultErr, show List.range 1 = [0] from rfl]

/-! ## Claim theorems -/

/-- C1: validate_migrations compares the freshly computed checksum string
with the INTEGER column value using Python inequality between a str and
an int, which never holds; evaluated at a history produced by the code
itself from a descriptor with identical content, validation returns
false although the stored checksum (0) and the computed checksum ("0")
agree in value — the code contradicts the claimed equal-checksums-give-
true behavior. -/
theorem C1_checksum_type_confusion :
    validate_migrations (_record_migration "postgres" [] c1Script true 0)
      [c1Script] = false
    ∧ c1Script.checksum = "0"
    ∧ (_record_migration "postgres" [] c1Script true 0).map
        (fun r => r.checksum) = [0] := by
  decide

unseal List.merge List.mergeSort in
/-- C4: discover_migrations returns descriptors sorted ascending by the
component-wise numeric version key, and every filesystem enumeration
order of the versions 1.2, 1.10, 2.0, 1.2.1 yields them in the order
1.2, 1.2.1, 1.10, 2.0. -/
theorem C4_version_ordering :
    (∀ files : List PGFile, (discover_migrations files).Pairwise
      (fun a b =>
        tupLe (_version_to_tuple a.version) (_version_to_tuple b.version) = true))
    ∧ ∀ fs : List PGFile, fs.Perm demoFiles →
        (discover_migrations fs).map (fun m => m.version) =
          ["1.2", "1.2.1", "1.10", "2.0"] := by
  constructor
  · intro files
    exact discover_sorted files
  · intro fs hp
    have hperm : (discover_migrations demoFiles).Perm (discover_migrations fs) :=
      (discover_perm_of_perm hp).symm
    have nd : ((discover_migrations demoFiles).map scriptKey).Nodup := by decide
    have heq := sorted_perm_nodup_eq hperm (discover_sorted demoFiles)
      (discover_sorted fs) nd
    rw [← heq]
    decide

theorem C4_version_ordering_witness :
    (([⟨"V1.10__b.sql", ""⟩, ⟨"V2.0__c.sql", ""⟩, ⟨"V1.2.1__d.sql", ""⟩,
       ⟨"V1.2__a.sql", ""⟩] : List PGFile)).Perm demoFiles
    ∧ (discover_migrations
        [⟨"V1.10__b.sql", ""⟩, ⟨"V2.0__c.sql", ""⟩, ⟨"V1.2.1__d.sql", ""⟩,
         ⟨"V1.2__a.sql", ""⟩]).map (fun m => m.version) =
      ["1.2", "1.2.1", "1.10", "2.0"] :=
  ⟨by decide, C4_version_ordering.2 _ (by decide)⟩

/-- C5: the relational checksum is str of the signed 32-bit CRC32 of the
line-ending-normalized content; the signed value lies in the 32-bit
range; the normalization removes every carriage return and is idempotent
(so hashing already-normalized content changes nothing, and the checksum
is a deterministic function of content); and a content whose line feeds
are expanded to CRLF pairs hashes to the same checksum. -/
theorem C5_relational_checksum :
    (∀ s : String, _calculate_checksum s = toString (checksumInt s)
      ∧ -(2 ^ 31) ≤ checksumInt s ∧ checksumInt s < 2 ^ 31)
    ∧ (∀ l : List Char, '\r' ∉ normalizeLineEndings l)
    ∧ (∀ l : List Char,
        crcChecksumOfChars (normalizeLineEndings l) = crcChecksumOfChars l)
    ∧ ∀ l : List Char, '\r' ∉ l →
        crcChecksumOfChars (expandLF l) = crcChecksumOfChars l := by
  refine ⟨fun s => ⟨rfl, checksumInt_range s⟩, no_cr_normalizeLineEndings,
    fun l => ?_, fun l h => ?_⟩
  · unfold crcChecksumOfChars
    rw [normalizeLineEndings_idem]
  · unfold crcChecksumOfChars
    rw [normalizeLineEndings_expandLF h]

theorem C5_relational_checksum_witness :
    ('\r' ∉ (['a', '\n', 'b'] : List Char))
    ∧ crcChecksumOfChars (expandLF ['a', '\n', 'b']) =
        crcChecksumOfChars ['a', '\n', 'b'] :=
  ⟨by decide, C5_relational_checksum.2.2.2 ['a', '\n', 'b'] (by decide)⟩

/-- C6 counterexample: the version string +7 is malformed with respect to
the dot-separated non-negative-integer grammar, yet Python int accepts
it, so its sort key is (7,): not the fallback (0,) and strictly greater
than the key of the well-formed version 1 — malformed versions do not
sort as the lowest possible key. -/
theorem C6_lowest_key_counterexample :
    versionWellFormed "+7" = false ∧ versionWellFormed "1" = true
    ∧ _version_to_tuple "+7" = [7] ∧ _version_to_tuple "1" = [1]
    ∧ _version_to_tuple "+7" ≠ [0]
    ∧ tupLt (_version_to_tuple "1") (_version_to_tuple "+7") = true := by
  decide

/-- C6 amended: a file whose JSON fails to decode or misses the version
or description key is skipped and the scan continues; when every kept
version is a string, discovery returns normally with the kept
descriptors sorted by version key; the sort key is total on strings —
a version with any component Python int rejects gets the fallback key
(0,), and the fallback key is less than or equal to the key of every
well-formed version (while int-parseable malformed versions such as +7
sort by their parsed value instead, see the counterexample). -/
theorem C6_discovery_totality_amended :
    (∀ files : List MongoFile,
      (∀ m ∈ files.filterMap mongoKeep, mongoVersionIsStr m = true) →
      mongo_discover files = .ok ((files.filterMap mongoKeep).mergeSort mongoLe)
      ∧ ((files.filterMap mongoKeep).mergeSort mongoLe).Perm
          (files.filterMap mongoKeep)
      ∧ ((files.filterMap mongoKeep).mergeSort mongoLe).Pairwise
          (fun a b => mongoLe a b = true))
    ∧ (∀ f : MongoFile, f.decoded = none → mongoKeep f = none)
    ∧ (∀ (f : MongoFile) (fields : List (String × JVal)),
        f.decoded = some fields →
        (jlookup fields "version" = none ∨ jlookup fields "description" = none) →
        mongoKeep f = none)
    ∧ (∀ v : String,
        (splitDot v.data).all (fun p => (pyIntOfChars p).isSome) = false →
        _version_to_tuple v = [0])
    ∧ (∀ v : String, versionWellFormed v = true →
        tupLe [0] (_version_to_tuple v) = true) := by
  refine ⟨fun files hall => ?_, fun f h => ?_, fun f fields hf hor => ?_,
    fun v h => version_tuple_fallback h, fun v h => versionWellFormed_key_ge h⟩
  · have hstr : (files.filterMap mongoKeep).all mongoVersionIsStr = true :=
      List.all_eq_true.mpr hall
    unfold mongo_discover
    rw [if_pos hstr]
    exact ⟨rfl, List.mergeSort_perm _ _,
      List.sorted_mergeSort mongoLe_trans mongoLe_total _⟩
  · unfold mongoKeep
    rw [h]
  · rcases f with ⟨nm, dec⟩
    simp only at hf
    subst hf
    show (match jlookup fields "version", jlookup fields "description" with
      | some v, some d =>
        some { version := v, description := d, filename := nm }
      | _, _ => none) = (none : Option MongoMigrationScript)
    rcases hor with h | h
    · rw [h]
    · rw [h]
      cases jlookup fields "version" <;> rfl

theorem C6_discovery_totality_amended_witness :
    ((∀ m ∈ c6Files.filterMap mongoKeep, mongoVersionIsStr m = true)
      ∧ mongo_discover c6Files =
          .ok ((c6Files.filterMap mongoKeep).mergeSort mongoLe))
    ∧ (versionWellFormed "1.0" = true
      ∧ tupLe [0] (_version_to_tuple "1.0") = true) :=
  ⟨⟨by decide, (C6_discovery_totality_amended.1 c6Files (by decide)).1⟩,
   ⟨by decide, C6_discovery_totality_amended.2.2.2.2 "1.0" (by decide)⟩⟩

/-- C8: clean_database_schemas without confirmation changes nothing and
returns false; with confirmation it drops the control table, the flyway
history table and the co-located application tables and sequence, and
returns true. -/
theorem C8_clean_confirmation_gating :
    (∀ s : DatabaseState, clean_database_schemas false s = (false, s))
    ∧ ∀ s : DatabaseState, clean_database_schemas true s =
        (true, { migration_execution_history := false,
                 flyway_schema_history := false, account_audit := false,
                 accounts := false, account_number_seq := false }) :=
  ⟨fun _ => rfl, fun _ => rfl⟩

/-- C9: a missing-table error during the applied-set read degrades to the
empty list and during completion bookkeeping to duration 0, while any
other database error propagates unchanged; error-free reads and
completions pass through. -/
theorem C9_missing_table_degradation :
    (∀ rows : List AppliedMigrationRow,
      get_applied_migrations (.ok rows) = .ok rows)
    ∧ (∀ e : String, containsSubstring doesNotExist.data e.data = true →
        get_applied_migrations (.error e) = .ok [])
    ∧ (∀ e : String, containsSubstring doesNotExist.data e.data = false →
        get_applied_migrations (.error e) = .error e)
    ∧ (∀ d : Int, complete_execution (.ok d) = .ok d)
    ∧ (∀ e : String, containsSubstring doesNotExist.data e.data = true →
        complete_execution (.error e) = .ok 0)
    ∧ (∀ e : String, containsSubstring doesNotExist.data e.data = false →
        complete_execution (.error e) = .error e) := by
  refine ⟨fun rows => rfl, fun e he => ?_, fun e he => ?_, fun d => rfl,
    fun e he => ?_, fun e he => ?_⟩
  · simp [get_applied_migrations, he]
  · simp [get_applied_migrations, he]
  · simp [complete_execution, he]
  · simp [complete_execution, he]

theorem C9_missing_table_degradation_witness :
    (containsSubstring doesNotExist.data
        "ERROR: relation flyway_schema_history does not exist".data = true
      ∧ get_applied_migrations
          (.error "ERROR: relation flyway_schema_history does not exist") = .ok []
      ∧ complete_execution
          (.error "ERROR: relation flyway_schema_history does not exist") = .ok 0)
    ∧ (containsSubstring doesNotExist.data "connection refused".data = false
      ∧ get_applied_migrations (.error "connection refused") =
          .error "connection refused"
      ∧ complete_execution (.error "connection refused") =
          .error "connection refused") :=
  ⟨⟨by decide, C9_missing_table_degradation.2.1 _ (by decide),
    C9_missing_table_degradation.2.2.2.2.1 _ (by decide)⟩,
   ⟨by decide, C9_missing_table_degradation.2.2.1 _ (by decide),
    C9_missing_table_degradation.2.2.2.2.2 _ (by decide)⟩⟩

/-- C2: in either engine, when the pending list is pre ++ failing :: post
with every migration of pre applying cleanly and failing raising, the
execution loop returns results for exactly the attempted descriptors
(each of pre as a success plus the one terminal failure), appends exactly
one history record per attempted descriptor (pre.length + 1 records,
history otherwise untouched), and never attempts a descriptor after the
failed one; execute_migrations is the loop applied to the pending list. -/
theorem C2_fail_fast :
    (∀ (runSql : String → Except String Unit) (user : String)
        (clock : Nat → Nat) (pre : List MigrationScript)
        (failing : MigrationScript) (post : List MigrationScript)
        (h : List AppliedMigrationRow) (e : String),
      runSql failing.sql_content = .error e →
      (∀ m ∈ pre, runSql m.sql_content = .ok ()) →
      ((executeLoop runSql user clock (pre ++ failing :: post) h 0).1.map
          (fun r => (r.version, r.successful)) =
        pre.map (fun m => (m.version, true)) ++ [(failing.version, false)])
      ∧ ∃ newRows : List AppliedMigrationRow,
          (executeLoop runSql user clock (pre ++ failing :: post) h 0).2 =
            h ++ newRows
          ∧ newRows.length = pre.length + 1
          ∧ newRows.map (fun r => (r.version, r.success)) =
              pre.map (fun m => (m.version, true)) ++ [(failing.version, false)])
    ∧ (∀ (runOps : MongoMigrationScript → Except (String × Nat) Nat)
        (user : String) (clock : Nat → Nat) (pre : List MongoMigrationScript)
        (failing : MongoMigrationScript) (post : List MongoMigrationScript)
        (h : List MongoHistDoc) (en : String × Nat),
      runOps failing = .error en →
      (∀ m ∈ pre, ∃ n : Nat, runOps m = .ok n) →
      ((mongoExecuteLoop runOps user clock (pre ++ failing :: post) h 0).1.map
          (fun r => (r.version, r.successful)) =
        pre.map (fun m => (m.version, true)) ++ [(failing.version, false)])
      ∧ ∃ newDocs : List MongoHistDoc,
          (mongoExecuteLoop runOps user clock (pre ++ failing :: post) h 0).2 =
            h ++ newDocs
          ∧ newDocs.length = pre.length + 1
          ∧ newDocs.map (fun r => (r.version, r.success)) =
              pre.map (fun m => (m.version, true)) ++ [(failing.version, false)])
    ∧ (∀ (runSql : String → Except String Unit) (user : String)
        (clock : Nat → Nat) (files : List PGFile)
        (h : List AppliedMigrationRow),
      execute_migrations runSql user clock files h =
        executeLoop runSql user clock
          (pg_get_pending (discover_migrations files) h) h 0)
    ∧ ∀ (runOps : MongoMigrationScript → Except (String × Nat) Nat)
        (user : String) (clock : Nat → Nat)
        (discovered : List MongoMigrationScript) (h : List MongoHistDoc),
      mongo_execute_migrations runOps user clock discovered h =
        mongoExecuteLoop runOps user clock
          (mongo_get_pending discovered h) h 0 :=
  ⟨fun runSql user clock pre failing post h e hf hok =>
      executeLoop_failfast runSql user clock failing post e hf pre h 0 hok,
   fun runOps user clock pre failing post h en hf hok =>
      mongoExecuteLoop_failfast runOps user clock failing post en hf pre h 0 hok,
   fun _ _ _ _ _ => rfl, fun _ _ _ _ _ => rfl⟩

theorem C2_fail_fast_witness :
    ((wRunSql wB.sql_content = .error "boom"
      ∧ ∀ m ∈ [wA], wRunSql m.sql_content = .ok ())
      ∧ ((executeLoop wRunSql "u" (fun _ => 5) ([wA] ++ wB :: [wC]) [] 0).1.map
          (fun r => (r.version, r.successful)) =
        [wA].map (fun m => (m.version, true)) ++ [(wB.version, false)])
      ∧ ∃ newRows : List AppliedMigrationRow,
          (executeLoop wRunSql "u" (fun _ => 5) ([wA] ++ wB :: [wC]) [] 0).2 =
            [] ++ newRows
          ∧ newRows.length = [wA].length + 1
          ∧ newRows.map (fun r => (r.version, r.success)) =
              [wA].map (fun m => (m.version, true)) ++ [(wB.version, false)])
    ∧ ((wRunOps mwB = .error ("boom", 1)
      ∧ ∀ m ∈ [mwA], ∃ n : Nat, wRunOps m = .ok n)
      ∧ ((mongoExecuteLoop wRunOps "u" (fun _ => 5) ([mwA] ++ mwB :: [mwC]) [] 0).1.map
          (fun r => (r.version, r.successful)) =
        [mwA].map (fun m => (m.version, true)) ++ [(mwB.version, false)])
      ∧ ∃ newDocs : List MongoHistDoc,
          (mongoExecuteLoop wRunOps "u" (fun _ => 5) ([mwA] ++ mwB :: [mwC]) [] 0).2 =
            [] ++ newDocs
          ∧ newDocs.length = [mwA].length + 1
          ∧ newDocs.map (fun r => (r.version, r.success)) =
              [mwA].map (fun m => (m.version, true)) ++ [(mwB.version, false)]) := by
  have hsql : ∀ m ∈ [wA], wRunSql m.sql_content = .ok () := by
    intro m hm
    simp at hm
    rw [hm]
    rfl
  have hops : ∀ m ∈ [mwA], ∃ n : Nat, wRunOps m = .ok n := by
    intro m hm
    simp at hm
    rw [hm]
    exact ⟨2, rfl⟩
  refine ⟨⟨⟨rfl, hsql⟩, ?_⟩, ⟨⟨rfl, hops⟩, ?_⟩⟩
  · exact C2_fail_fast.1 wRunSql "u" (fun _ => 5) [wA] wB [wC] [] "boom"
      rfl hsql
  · exact C2_fail_fast.2.1 wRunOps "u" (fun _ => 5) [mwA] mwB [mwC] []
      ("boom", 1) rfl hops

/-- C3: pending-list computation is, by construction, a pure function of
the discovered list and the applied list; on applied sets whose versions
are non-empty strings (which includes every history the engines
themselves write) the relational pending list is exactly the discovered
descriptors whose version does not occur among the applied versions, in
discovery order (a sublist of the discovered order); the document engine
satisfies the same equation unconditionally; hence an applied version
never reappears in a pending list; relational descriptors never carry an
empty version. -/
theorem C3_planner :
    (∀ (d : List MigrationScript) (a : List AppliedMigrationRow),
      (∀ r ∈ a, r.version ≠ "") →
      pg_get_pending d a =
        d.filter (fun m => !((a.map (fun r => r.version)).contains m.version)))
    ∧ (∀ (d : List MigrationScript) (a : List AppliedMigrationRow),
        (pg_get_pending d a).Sublist d)
    ∧ (∀ (d : List MigrationScript) (a : List AppliedMigrationRow) (v : String),
        v ≠ "" → v ∈ a.map (fun r => r.version) →
        v ∉ (pg_get_pending d a).map (fun m => m.version))
    ∧ (∀ (d : List MongoMigrationScript) (a : List MongoHistDoc),
        mongo_get_pending d a =
          d.filter (fun m => !((a.map (fun r => r.version)).contains m.version)))
    ∧ (∀ (d : List MongoMigrationScript) (a : List MongoHistDoc),
        (mongo_get_pending d a).Sublist d)
    ∧ (∀ (d : List MongoMigrationScript) (a : List MongoHistDoc) (v : JVal),
        v ∈ a.map (fun r => r.version) →
        v ∉ (mongo_get_pending d a).map (fun m => m.version))
    ∧ ∀ (files : List PGFile) (m : MigrationScript),
        m ∈ discover_migrations files → m.version ≠ "" := by
  refine ⟨fun d a ha => ?_, fun d a => List.filter_sublist d,
    fun d a v hv hva hmem => ?_, fun d a => rfl,
    fun d a => List.filter_sublist d, fun d a v hva hmem => ?_,
    fun files m hm => discover_version_ne_empty hm⟩
  · unfold pg_get_pending
    rw [show a.filter (fun r => decide (r.version ≠ "")) = a from
      List.filter_eq_self.mpr (fun r hr => by simpa using ha r hr)]
  · rcases List.mem_map.mp hmem with ⟨m, hmp, hmv⟩
    rcases List.mem_filter.mp hmp with ⟨_, hkeep⟩
    simp at hkeep
    rcases List.mem_map.mp hva with ⟨r, hra, hrv⟩
    exact (hkeep r hra (by rw [hrv]; exact hv)) (by rw [hrv, hmv])
  · rcases List.mem_map.mp hmem with ⟨m, hmp, hmv⟩
    rcases List.mem_filter.mp hmp with ⟨_, hkeep⟩
    simp at hkeep
    rcases List.mem_map.mp hva with ⟨r, hra, hrv⟩
    exact (hkeep r hra) (by rw [hrv, hmv])

theorem C3_planner_witness :
    ((∀ r ∈ [mkAppliedRow "u" 1 wB true 0], r.version ≠ "")
      ∧ pg_get_pending [wA, wB] [mkAppliedRow "u" 1 wB true 0] =
          [wA, wB].filter (fun m =>
            !(([mkAppliedRow "u" 1 wB true 0].map (fun r => r.version)).contains
              m.version)))
    ∧ (("2" : String) ≠ ""
      ∧ "2" ∈ [mkAppliedRow "u" 1 wB true 0].map (fun r => r.version)
      ∧ "2" ∉ (pg_get_pending [wA, wB] [mkAppliedRow "u" 1 wB true 0]).map
          (fun m => m.version)) :=
  ⟨⟨by decide, C3_planner.1 [wA, wB] [mkAppliedRow "u" 1 wB true 0] (by decide)⟩,
   ⟨by decide, by decide,
    C3_planner.2.2.1 [wA, wB] [mkAppliedRow "u" 1 wB true 0] "2"
      (by decide) (by decide)⟩⟩

/-- C7: every relational recording appends exactly one row whose
installed_rank is max(existing)+1 (1 on an empty table), leaving all
prior rows in place, so strictly increasing ranks are preserved across
any sequence of attempts (hence ranks stay unique); the document
recording likewise appends exactly one document. -/
theorem C7_append_only_monotonic_rank :
    (∀ (user : String) (h : List AppliedMigrationRow) (m : MigrationScript)
        (success : Bool) (t : Nat),
      _record_migration user h m success t =
        h ++ [mkAppliedRow user (maxRank h + 1) m success t]
      ∧ (mkAppliedRow user (maxRank h + 1) m success t).installed_rank =
          maxRank h + 1
      ∧ (h = [] →
          (mkAppliedRow user (maxRank h + 1) m success t).installed_rank = 1))
    ∧ (∀ (user : String) (h : List AppliedMigrationRow) (m : MigrationScript)
        (success : Bool) (t : Nat),
      (h.map (fun r => r.installed_rank)).Pairwise (fun a b => a < b) →
      ((_record_migration user h m success t).map
          (fun r => r.installed_rank)).Pairwise (fun a b => a < b))
    ∧ ∀ (user : String) (h : List MongoHistDoc) (m : MongoMigrationScript)
        (success : Bool) (t n : Nat) (err : Option String),
      mongo_record user h m success t n err =
        h ++ [mkMongoDoc user m success t n err] := by
  refine ⟨fun user h m success t => ⟨rfl, rfl, fun he => by rw [he]; rfl⟩,
    fun user h m success t hp => ?_, fun _ _ _ _ _ _ _ => rfl⟩
  unfold _record_migration
  rw [List.map_append, List.pairwise_append]
  refine ⟨hp, by simp, ?_⟩
  intro a ha b hb
  simp [mkAppliedRow] at hb
  rcases List.mem_map.mp ha with ⟨r, hr, hra⟩
  have := rank_le_maxRank hr
  omega

theorem C7_append_only_monotonic_rank_witness :
    (([mkAppliedRow "u" 1 wA true 0, mkAppliedRow "u" 2 wB false 0].map
        (fun r => r.installed_rank)).Pairwise (fun a b => a < b))
    ∧ ((_record_migration "u"
        [mkAppliedRow "u" 1 wA true 0, mkAppliedRow "u" 2 wB false 0]
        wC true 0).map (fun r => r.installed_rank)).Pairwise
        (fun a b => a < b) :=
  ⟨by decide,
   C7_append_only_monotonic_rank.2.1 "u"
     [mkAppliedRow "u" 1 wA true 0, mkAppliedRow "u" 2 wB false 0]
     wC true 0 (by decide)⟩

/-- C10: in both engines every history record written by the execution
loop carries execution_time 0, whatever the clock measured, while the
returned in-memory results carry exactly the measured per-attempt clock
values — persisted history never reflects the actual duration. -/
theorem C10_persisted_duration_zero :
    (∀ (runSql : String → Except String Unit) (user : String)
        (clock : Nat → Nat) (l : List MigrationScript)
        (h : List AppliedMigrationRow),
      (∃ newRows : List AppliedMigrationRow,
        (executeLoop runSql user clock l h 0).2 = h ++ newRows
        ∧ ∀ r ∈ newRows, r.execution_time = 0)
      ∧ (executeLoop runSql user clock l h 0).1.map
            (fun r => r.execution_time) =
          (List.range (executeLoop runSql user clock l h 0).1.length).map clock)
    ∧ ∀ (runOps : MongoMigrationScript → Except (String × Nat) Nat)
        (user : String) (clock : Nat → Nat) (l : List MongoMigrationScript)
        (h : List MongoHistDoc),
      (∃ newDocs : List MongoHistDoc,
        (mongoExecuteLoop runOps user clock l h 0).2 = h ++ newDocs
        ∧ ∀ r ∈ newDocs, r.execution_time = 0)
      ∧ (mongoExecuteLoop runOps user clock l h 0).1.map
            (fun r => r.execution_time) =
          (List.range (mongoExecuteLoop runOps user clock l h 0).1.length).map
            clock := by
  constructor
  · intro runSql user clock l h
    have ht := executeLoop_times runSql user clock l h 0
    refine ⟨ht.1, ?_⟩
    rw [ht.2]
    exact List.map_congr_left (fun j _ => by rw [Nat.zero_add])
  · intro runOps user clock l h
    have ht := mongoExecuteLoop_times runOps user clock l h 0
    refine ⟨ht.1, ?_⟩
    rw [ht.2]
    exact List.map_congr_left (fun j _ => by rw [Nat.zero_add])

theorem C10_persisted_duration_zero_witness :
    ((∃ newRows : List AppliedMigrationRow,
        (executeLoop wRunSql "u" (fun j => j + 7) [wA] [] 0).2 = [] ++ newRows
        ∧ ∀ r ∈ newRows, r.execution_time = 0)
      ∧ (executeLoop wRunSql "u" (fun j => j + 7) [wA] [] 0).1.map
            (fun r => r.execution_time) =
          (List.range (executeLoop wRunSql "u" (fun j => j + 7) [wA] [] 0).1.length).map
            (fun j => j + 7))
    ∧ (∃ newDocs : List MongoHistDoc,
        (mongoExecuteLoop wRunOps "u" (fun j => j + 7) [mwA] [] 0).2 = [] ++ newDocs
        ∧ ∀ r ∈ newDocs, r.execution_time = 0)
      ∧ (mongoExecuteLoop wRunOps "u" (fun j => j + 7) [mwA] [] 0).1.map
            (fun r => r.execution_time) =
          (List.range (mongoExecuteLoop wRunOps "u" (fun j => j + 7) [mwA] [] 0).1.length).map
            (fun j => j + 7) :=
  ⟨C10_persisted_duration_zero.1 wRunSql "u" (fun j => j + 7) [wA] [],
   C10_persisted_duration_zero.2 wRunOps "u" (fun j => j + 7) [mwA] []⟩

end Financer
